import Mathlib

/-!
Verification of the aggregation engine of `github-stats-lib.js`.

The JavaScript source is embedded shallowly:
* timestamps are integers (epoch milliseconds; `new Date(x) > dateFrom`
  compares the underlying numbers),
* JavaScript objects used as dictionaries (`acc[key]`, the per-PR marker
  objects, the summary accumulator) are association lists in insertion
  order, matching `Object.keys` enumeration order for string keys,
* JavaScript `Set` is a duplicate-free list in insertion order,
* the bitwise `&` between the two date comparisons coerces booleans to
  0/1 and is truthy exactly when both comparisons hold, so it is embedded
  as boolean conjunction,
* `key.split('/')` is embedded by `splitOnChar` on the character list of
  the key, matching JavaScript `String.prototype.split` with a one
  character separator; destructuring `[owner, repo, author]` takes the
  first three components, with `undefined` for missing components
  modelled by `""` (unreachable: every key contains two separators),
* dictionary reads see only keys previously stored (the object prototype
  chain is not modelled).
-/

namespace GHStats

/-- A normalized review record as built in `main`:
`{ state, reviewer, submited_at }` (the source spells `submited_at`). -/
structure Review where
  state : String
  reviewer : String
  submited_at : Int
deriving Repr, DecidableEq

/-- A normalized pull request record as built in `main`, with the fields
the aggregation engine reads. -/
structure PullRequest where
  owner : String
  repo : String
  author : String
  state : String
  created_at : Int
  reviews : List Review
deriving Repr, DecidableEq

/-- The counter record `{ created: 0, commented: 0, approved: 0 }`. -/
structure Counters where
  created : Nat
  commented : Nat
  approved : Nat
deriving Repr, DecidableEq

def Counters.zero : Counters := ⟨0, 0, 0⟩

/-- Association list model of a JavaScript object used as a dictionary,
in key insertion order. -/
def lookup {α : Type} (m : List (String × α)) (k : String) : Option α :=
  match m with
  | [] => none
  | (k', v) :: rest => if k' = k then some v else lookup rest k

/-- `if (!acc[key]) { acc[key] = z; }` : append a fresh key at the end. -/
def ensureKey {α : Type} (m : List (String × α)) (k : String) (z : α) :
    List (String × α) :=
  match lookup m k with
  | some _ => m
  | none => m ++ [(k, z)]

/-- In-place update of the value stored at key `k` (position preserved;
a dictionary holds at most one entry per key). -/
def mapAt {α : Type} (m : List (String × α)) (k : String) (f : α → α) :
    List (String × α) :=
  match m with
  | [] => []
  | (k', v) :: rest =>
    if k' = k then (k', f v) :: rest else (k', v) :: mapAt rest k f

/-- The date-window check `new Date(t) > dateFrom & new Date(t) < dateTo`.
The bitwise `&` on the two coerced booleans is truthy iff both hold. -/
def inWindow (t dateFrom dateTo : Int) : Bool :=
  decide (dateFrom < t) && decide (t < dateTo)

/-- The composite key `` `${owner}/${repo}/${actor}` ``. -/
def joinKey (owner repo actor : String) : String :=
  owner ++ "/" ++ repo ++ "/" ++ actor

def authorKeyOf (pr : PullRequest) : String :=
  joinKey pr.owner pr.repo pr.author

abbrev StatMap := List (String × Counters)

/-- State threaded through `pr.reviews.forEach(...)`: the outer
accumulator plus the two per-PR marker objects `reviewsCommented` and
`reviewsApproved` (modelled as lists of the keys set to `true`). -/
structure ReviewFoldState where
  acc : StatMap
  reviewsCommented : List String
  reviewsApproved : List String
deriving Repr

def bumpCreated (c : Counters) : Counters := { c with created := c.created + 1 }
def bumpCommented (c : Counters) : Counters := { c with commented := c.commented + 1 }
def bumpApproved (c : Counters) : Counters := { c with approved := c.approved + 1 }

/-- `validReviewInterval && alignReview`: the review is inside the window
and is not a self-review. -/
def qualifies (pr : PullRequest) (dateFrom dateTo : Int) (r : Review) : Bool :=
  inWindow r.submited_at dateFrom dateTo && (pr.author != r.reviewer)

/-- Body of `pr.reviews.forEach(review => ...)` in `getDetailedStats`. -/
def processReview (pr : PullRequest) (dateFrom dateTo : Int)
    (st : ReviewFoldState) (review : Review) : ReviewFoldState :=
  if qualifies pr dateFrom dateTo review then
    let reviewerKey := joinKey pr.owner pr.repo review.reviewer
    let acc1 := ensureKey st.acc reviewerKey Counters.zero
    if review.state == "COMMENTED" && !(st.reviewsCommented.contains reviewerKey) then
      { acc := mapAt acc1 reviewerKey bumpCommented,
        reviewsCommented := reviewerKey :: st.reviewsCommented,
        reviewsApproved := st.reviewsApproved }
    else if review.state == "APPROVED" && !(st.reviewsApproved.contains reviewerKey) then
      { acc := mapAt acc1 reviewerKey bumpApproved,
        reviewsCommented := st.reviewsCommented,
        reviewsApproved := reviewerKey :: st.reviewsApproved }
    else
      { acc := acc1,
        reviewsCommented := st.reviewsCommented,
        reviewsApproved := st.reviewsApproved }
  else st

/-- Body of `pullRequests.reduce((acc, pr) => ...)` in `getDetailedStats`:
the `created` step guarded by `validPullRequestInterval`, then the review
loop started with fresh empty marker objects. -/
def processPR (dateFrom dateTo : Int) (acc : StatMap) (pr : PullRequest) :
    StatMap :=
  let key := authorKeyOf pr
  let acc1 :=
    if inWindow pr.created_at dateFrom dateTo then
      mapAt (ensureKey acc key Counters.zero) key bumpCreated
    else acc
  (pr.reviews.foldl (processReview pr dateFrom dateTo) ⟨acc1, [], []⟩).acc

/-- The `grouped` dictionary after the whole reduce. -/
def groupedStats (pullRequests : List PullRequest) (dateFrom dateTo : Int) :
    StatMap :=
  pullRequests.foldl (processPR dateFrom dateTo) []

/-- JavaScript `String.prototype.split` with a single-character separator,
on character lists: `"a//b".split('/') = ["a", "", "b"]`, `"".split('/') =
[""]`. -/
def splitOnChar (sep : Char) : List Char → List (List Char)
  | [] => [[]]
  | c :: rest =>
    match splitOnChar sep rest with
    | [] => [[]]
    | p :: ps => if c = sep then [] :: p :: ps else (c :: p) :: ps

def splitKey (k : String) : List String :=
  (splitOnChar '/' k.data).map String.mk

/-- One row of the flattened detailed output. -/
structure DetailedRow where
  owner : String
  repo : String
  author : String
  created : Nat
  commented : Nat
  approved : Nat
deriving Repr, DecidableEq

/-- `const [owner, repo, author] = key.split('/'); return { owner, repo,
author, ...grouped[key] }`. -/
def rowOfEntry (e : String × Counters) : DetailedRow :=
  { owner := (splitKey e.1).getD 0 "",
    repo := (splitKey e.1).getD 1 "",
    author := (splitKey e.1).getD 2 "",
    created := e.2.created,
    commented := e.2.commented,
    approved := e.2.approved }

/-- `getDetailedStats (pullRequests, dateFrom, dateTo)`. -/
def getDetailedStats (pullRequests : List PullRequest) (dateFrom dateTo : Int) :
    List DetailedRow :=
  (groupedStats pullRequests dateFrom dateTo).map rowOfEntry

/-- The per-author accumulator of `getSummary`, with the two JavaScript
`Set`s modelled as duplicate-free lists in insertion order. -/
structure SummaryAcc where
  pull_requests : Nat
  repos : List String
  commented : Nat
  approved : Nat
  reposReviewed : List String
deriving Repr, DecidableEq

def SummaryAcc.zero : SummaryAcc := ⟨0, [], 0, 0, []⟩

abbrev SummaryMap := List (String × SummaryAcc)

/-- `Set.prototype.add`: append if not already present. -/
def setAdd (s : List String) (x : String) : List String :=
  if s.contains x then s else s ++ [x]

/-- `` `${item.owner}/${item.repo}` ``. -/
def repoKey (owner repo : String) : String := owner ++ "/" ++ repo

/-- The five mutations applied to `acc[item.author]` per detailed row. -/
def applyRow (a : SummaryAcc) (item : DetailedRow) : SummaryAcc :=
  { pull_requests := a.pull_requests + item.created,
    repos := if 0 < item.created then setAdd a.repos (repoKey item.owner item.repo)
             else a.repos,
    commented := a.commented + item.commented,
    approved := a.approved + item.approved,
    reposReviewed := if 0 < item.commented || 0 < item.approved then
                       setAdd a.reposReviewed (repoKey item.owner item.repo)
                     else a.reposReviewed }

/-- Body of `stats.reduce((acc, item) => ...)` in `getSummary`. -/
def summaryStep (acc : SummaryMap) (item : DetailedRow) : SummaryMap :=
  mapAt (ensureKey acc item.author SummaryAcc.zero) item.author
    (fun a => applyRow a item)

/-- One row of the summary output. -/
structure SummaryRow where
  author : String
  pull_requests : Nat
  repos : Nat
  commented : Nat
  approved : Nat
  repos_reviewed : Nat
deriving Repr, DecidableEq

def summaryRowOf (e : String × SummaryAcc) : SummaryRow :=
  { author := e.1,
    pull_requests := e.2.pull_requests,
    repos := e.2.repos.length,
    commented := e.2.commented,
    approved := e.2.approved,
    repos_reviewed := e.2.reposReviewed.length }

/-- `getSummary (stats)`. -/
def getSummary (stats : List DetailedRow) : List SummaryRow :=
  (stats.foldl summaryStep []).map summaryRowOf

/-- `filterPullRequestList (pr, dateFrom, dateTo)`. -/
def filterPullRequestList (pr : PullRequest) (dateFrom dateTo : Int) : Bool :=
  let isOpen := pr.state == "open"
  let createdAfter := decide (dateFrom < pr.created_at)
  let createdBefore := decide (pr.created_at < dateTo)
  isOpen || (createdAfter && createdBefore)

/-! ### Association-map primitives -/

def hasKey {α : Type} (m : List (String × α)) (k : String) : Bool :=
  (lookup m k).isSome

def createdAt (m : StatMap) (k : String) : Nat :=
  ((lookup m k).getD Counters.zero).created

def commentedAt (m : StatMap) (k : String) : Nat :=
  ((lookup m k).getD Counters.zero).commented

def approvedAt (m : StatMap) (k : String) : Nat :=
  ((lookup m k).getD Counters.zero).approved

lemma lookup_append_of_none {α : Type} {m : List (String × α)} {k : String}
    (h : lookup m k = none) (l : List (String × α)) :
    lookup (m ++ l) k = lookup l k := by
  induction m with
  | nil => rfl
  | cons p rest ih =>
    obtain ⟨k', v⟩ := p
    by_cases hk : k' = k
    · simp [lookup, hk] at h
    · simp only [lookup, hk, if_neg hk] at h ⊢
      exact ih h

lemma lookup_ensureKey_self {α : Type} (m : List (String × α)) (k : String)
    (z : α) : lookup (ensureKey m k z) k = some ((lookup m k).getD z) := by
  unfold ensureKey
  cases h : lookup m k with
  | some v => simp [h]
  | none => simp [h, lookup_append_of_none h, lookup]

lemma lookup_ensureKey_ne {α : Type} (m : List (String × α)) (k' k : String)
    (z : α) (h : k' ≠ k) : lookup (ensureKey m k' z) k = lookup m k := by
  unfold ensureKey
  cases hm : lookup m k' with
  | some v => rfl
  | none =>
    induction m with
    | nil => simp [lookup, h]
    | cons p rest ih =>
      obtain ⟨k'', v⟩ := p
      by_cases hk : k'' = k
      · simp [lookup, hk]
      · simp only [lookup, if_neg hk, List.cons_append] at *
        by_cases hk' : k'' = k'
        · simp [hk'] at hm
        · simp only [if_neg hk'] at hm
          exact ih hm

lemma lookup_mapAt_self {α : Type} (m : List (String × α)) (k : String)
    (f : α → α) : lookup (mapAt m k f) k = (lookup m k).map f := by
  induction m with
  | nil => rfl
  | cons p rest ih =>
    obtain ⟨k', v⟩ := p
    by_cases hk : k' = k
    · simp [mapAt, lookup, hk]
    · simp [mapAt, lookup, hk, ih]

lemma lookup_mapAt_ne {α : Type} (m : List (String × α)) (k' k : String)
    (f : α → α) (h : k' ≠ k) : lookup (mapAt m k' f) k = lookup m k := by
  induction m with
  | nil => rfl
  | cons p rest ih =>
    obtain ⟨k'', v⟩ := p
    by_cases hk' : k'' = k'
    · have hk : k'' ≠ k := by
        rw [hk']
        exact h
      simp [mapAt, lookup, hk', hk, h]
    · by_cases hk : k'' = k
      · simp [mapAt, lookup, hk', hk, Ne.symm h]
      · simp [mapAt, lookup, hk', hk, ih]

lemma lookup_bumpAt_self {α : Type} (m : List (String × α)) (k : String)
    (z : α) (f : α → α) :
    lookup (mapAt (ensureKey m k z) k f) k = some (f ((lookup m k).getD z)) := by
  rw [lookup_mapAt_self, lookup_ensureKey_self]
  rfl

lemma lookup_bumpAt_ne {α : Type} (m : List (String × α)) (k' k : String)
    (z : α) (f : α → α) (h : k' ≠ k) :
    lookup (mapAt (ensureKey m k' z) k' f) k = lookup m k := by
  rw [lookup_mapAt_ne _ _ _ _ h, lookup_ensureKey_ne _ _ _ _ h]

lemma hasKey_ensureKey {α : Type} (m : List (String × α)) (k' k : String)
    (z : α) : hasKey (ensureKey m k' z) k = (hasKey m k || (k' == k)) := by
  by_cases h : k' = k
  · subst h
    simp [hasKey, lookup_ensureKey_self]
  · simp [hasKey, lookup_ensureKey_ne _ _ _ _ h, h]

lemma hasKey_mapAt {α : Type} (m : List (String × α)) (k' k : String)
    (f : α → α) : hasKey (mapAt m k' f) k = hasKey m k := by
  by_cases h : k' = k
  · subst h
    simp [hasKey, lookup_mapAt_self]
  · simp [hasKey, lookup_mapAt_ne _ _ _ _ h]

/-! Field-level corollaries for the three counter fields. -/

lemma createdAt_ensureKey (m : StatMap) (k' k : String) :
    createdAt (ensureKey m k' Counters.zero) k = createdAt m k := by
  unfold createdAt
  by_cases h : k' = k
  · subst h
    rw [lookup_ensureKey_self]
    simp
  · rw [lookup_ensureKey_ne _ _ _ _ h]

lemma commentedAt_ensureKey (m : StatMap) (k' k : String) :
    commentedAt (ensureKey m k' Counters.zero) k = commentedAt m k := by
  unfold commentedAt
  by_cases h : k' = k
  · subst h
    rw [lookup_ensureKey_self]
    simp
  · rw [lookup_ensureKey_ne _ _ _ _ h]

lemma approvedAt_ensureKey (m : StatMap) (k' k : String) :
    approvedAt (ensureKey m k' Counters.zero) k = approvedAt m k := by
  unfold approvedAt
  by_cases h : k' = k
  · subst h
    rw [lookup_ensureKey_self]
    simp
  · rw [lookup_ensureKey_ne _ _ _ _ h]

lemma createdAt_bumpCreated (m : StatMap) (k' k : String) :
    createdAt (mapAt (ensureKey m k' Counters.zero) k' bumpCreated) k
      = createdAt m k + (if k' = k then 1 else 0) := by
  unfold createdAt
  by_cases h : k' = k
  · subst h
    rw [lookup_bumpAt_self]
    simp [bumpCreated]
  · rw [lookup_bumpAt_ne _ _ _ _ _ h]
    simp [h]

lemma commentedAt_bumpCreated (m : StatMap) (k' k : String) :
    commentedAt (mapAt (ensureKey m k' Counters.zero) k' bumpCreated) k
      = commentedAt m k := by
  unfold commentedAt
  by_cases h : k' = k
  · subst h
    rw [lookup_bumpAt_self]
    simp [bumpCreated]
  · rw [lookup_bumpAt_ne _ _ _ _ _ h]

lemma approvedAt_bumpCreated (m : StatMap) (k' k : String) :
    approvedAt (mapAt (ensureKey m k' Counters.zero) k' bumpCreated) k
      = approvedAt m k := by
  unfold approvedAt
  by_cases h : k' = k
  · subst h
    rw [lookup_bumpAt_self]
    simp [bumpCreated]
  · rw [lookup_bumpAt_ne _ _ _ _ _ h]

lemma createdAt_bumpCommented (m : StatMap) (k' k : String) :
    createdAt (mapAt (ensureKey m k' Counters.zero) k' bumpCommented) k
      = createdAt m k := by
  unfold createdAt
  by_cases h : k' = k
  · subst h
    rw [lookup_bumpAt_self]
    simp [bumpCommented]
  · rw [lookup_bumpAt_ne _ _ _ _ _ h]

lemma commentedAt_bumpCommented (m : StatMap) (k' k : String) :
    commentedAt (mapAt (ensureKey m k' Counters.zero) k' bumpCommented) k
      = commentedAt m k + (if k' = k then 1 else 0) := by
  unfold commentedAt
  by_cases h : k' = k
  · subst h
    rw [lookup_bumpAt_self]
    simp [bumpCommented]
  · rw [lookup_bumpAt_ne _ _ _ _ _ h]
    simp [h]

lemma approvedAt_bumpCommented (m : StatMap) (k' k : String) :
    approvedAt (mapAt (ensureKey m k' Counters.zero) k' bumpCommented) k
      = approvedAt m k := by
  unfold approvedAt
  by_cases h : k' = k
  · subst h
    rw [lookup_bumpAt_self]
    simp [bumpCommented]
  · rw [lookup_bumpAt_ne _ _ _ _ _ h]

lemma createdAt_bumpApproved (m : StatMap) (k' k : String) :
    createdAt (mapAt (ensureKey m k' Counters.zero) k' bumpApproved) k
      = createdAt m k := by
  unfold createdAt
  by_cases h : k' = k
  · subst h
    rw [lookup_bumpAt_self]
    simp [bumpApproved]
  · rw [lookup_bumpAt_ne _ _ _ _ _ h]

lemma commentedAt_bumpApproved (m : StatMap) (k' k : String) :
    commentedAt (mapAt (ensureKey m k' Counters.zero) k' bumpApproved) k
      = commentedAt m k := by
  unfold commentedAt
  by_cases h : k' = k
  · subst h
    rw [lookup_bumpAt_self]
    simp [bumpApproved]
  · rw [lookup_bumpAt_ne _ _ _ _ _ h]

lemma approvedAt_bumpApproved (m : StatMap) (k' k : String) :
    approvedAt (mapAt (ensureKey m k' Counters.zero) k' bumpApproved) k
      = approvedAt m k + (if k' = k then 1 else 0) := by
  unfold approvedAt
  by_cases h : k' = k
  · subst h
    rw [lookup_bumpAt_self]
    simp [bumpApproved]
  · rw [lookup_bumpAt_ne _ _ _ _ _ h]
    simp [h]

/-! ### Per-review step characterization

`stepC`/`stepA` say: the review qualifies, has the given state, and its
reviewer key is `k`; `stepAny` drops the state requirement. -/

def stepC (pr : PullRequest) (dateFrom dateTo : Int) (k : String)
    (r : Review) : Bool :=
  qualifies pr dateFrom dateTo r && (r.state == "COMMENTED")
    && (joinKey pr.owner pr.repo r.reviewer == k)

def stepA (pr : PullRequest) (dateFrom dateTo : Int) (k : String)
    (r : Review) : Bool :=
  qualifies pr dateFrom dateTo r && (r.state == "APPROVED")
    && (joinKey pr.owner pr.repo r.reviewer == k)

def stepAny (pr : PullRequest) (dateFrom dateTo : Int) (k : String)
    (r : Review) : Bool :=
  qualifies pr dateFrom dateTo r && (joinKey pr.owner pr.repo r.reviewer == k)

lemma processReview_createdAt (pr : PullRequest) (dF dT : Int)
    (st : ReviewFoldState) (r : Review) (k : String) :
    createdAt (processReview pr dF dT st r).acc k = createdAt st.acc k := by
  unfold processReview
  by_cases hq : qualifies pr dF dT r = true
  · rw [if_pos hq]
    simp only []
    by_cases h1 : (r.state == "COMMENTED"
        && !(st.reviewsCommented.contains (joinKey pr.owner pr.repo r.reviewer))) = true
    · rw [if_pos h1]
      exact createdAt_bumpCommented _ _ _
    · rw [if_neg h1]
      by_cases h2 : (r.state == "APPROVED"
          && !(st.reviewsApproved.contains (joinKey pr.owner pr.repo r.reviewer))) = true
      · rw [if_pos h2]
        exact createdAt_bumpApproved _ _ _
      · rw [if_neg h2]
        exact createdAt_ensureKey _ _ _
  · rw [if_neg hq]

lemma processReview_commentedAt (pr : PullRequest) (dF dT : Int)
    (st : ReviewFoldState) (r : Review) (k : String) :
    commentedAt (processReview pr dF dT st r).acc k
      = commentedAt st.acc k
        + (if stepC pr dF dT k r && !(st.reviewsCommented.contains k) then 1
           else 0) := by
  unfold processReview stepC
  by_cases hq : qualifies pr dF dT r = true
  · rw [if_pos hq]
    simp only []
    by_cases h1 : (r.state == "COMMENTED"
        && !(st.reviewsCommented.contains (joinKey pr.owner pr.repo r.reviewer))) = true
    · rw [if_pos h1]
      simp only []
      rw [commentedAt_bumpCommented]
      rw [Bool.and_eq_true] at h1
      obtain ⟨hs, hnc⟩ := h1
      by_cases hk : joinKey pr.owner pr.repo r.reviewer = k
      · rw [hk] at hnc
        simp at hnc
        simp [hq, hs, hk, hnc]
      · simp [hk]
    · rw [if_neg h1]
      by_cases h2 : (r.state == "APPROVED"
          && !(st.reviewsApproved.contains (joinKey pr.owner pr.repo r.reviewer))) = true
      · rw [if_pos h2]
        simp only []
        rw [commentedAt_bumpApproved]
        rw [Bool.and_eq_true, beq_iff_eq] at h2
        have hsc : (r.state == "COMMENTED") = false := by
          rw [h2.1]
          rfl
        simp [hsc]
      · rw [if_neg h2]
        simp only []
        rw [commentedAt_ensureKey]
        rw [Bool.and_eq_true, not_and] at h1
        by_cases hs : (r.state == "COMMENTED") = true
        · have hc := h1 hs
          simp at hc
          by_cases hk : joinKey pr.owner pr.repo r.reviewer = k
          · rw [hk] at hc
            simp [hc]
          · simp [hk]
        · have hs' : (r.state == "COMMENTED") = false := Bool.eq_false_iff.mpr hs
          simp [hs']
  · rw [if_neg hq]
    have hq' : qualifies pr dF dT r = false := Bool.eq_false_iff.mpr hq
    simp [hq']

lemma processReview_approvedAt (pr : PullRequest) (dF dT : Int)
    (st : ReviewFoldState) (r : Review) (k : String) :
    approvedAt (processReview pr dF dT st r).acc k
      = approvedAt st.acc k
        + (if stepA pr dF dT k r && !(st.reviewsApproved.contains k) then 1
           else 0) := by
  unfold processReview stepA
  by_cases hq : qualifies pr dF dT r = true
  · rw [if_pos hq]
    simp only []
    by_cases h1 : (r.state == "COMMENTED"
        && !(st.reviewsCommented.contains (joinKey pr.owner pr.repo r.reviewer))) = true
    · rw [if_pos h1]
      simp only []
      rw [approvedAt_bumpCommented]
      rw [Bool.and_eq_true, beq_iff_eq] at h1
      have hsa : (r.state == "APPROVED") = false := by
        rw [h1.1]
        rfl
      simp [hsa]
    · rw [if_neg h1]
      by_cases h2 : (r.state == "APPROVED"
          && !(st.reviewsApproved.contains (joinKey pr.owner pr.repo r.reviewer))) = true
      · rw [if_pos h2]
        simp only []
        rw [approvedAt_bumpApproved]
        rw [Bool.and_eq_true] at h2
        obtain ⟨hs, hna⟩ := h2
        by_cases hk : joinKey pr.owner pr.repo r.reviewer = k
        · rw [hk] at hna
          simp at hna
          simp [hq, hs, hk, hna]
        · simp [hk]
      · rw [if_neg h2]
        simp only []
        rw [approvedAt_ensureKey]
        rw [Bool.and_eq_true, not_and] at h2
        by_cases hs : (r.state == "APPROVED") = true
        · have hc := h2 hs
          simp at hc
          by_cases hk : joinKey pr.owner pr.repo r.reviewer = k
          · rw [hk] at hc
            simp [hc]
          · simp [hk]
        · have hs' : (r.state == "APPROVED") = false := Bool.eq_false_iff.mpr hs
          simp [hs']
  · rw [if_neg hq]
    have hq' : qualifies pr dF dT r = false := Bool.eq_false_iff.mpr hq
    simp [hq']

lemma processReview_hasKey (pr : PullRequest) (dF dT : Int)
    (st : ReviewFoldState) (r : Review) (k : String) :
    hasKey (processReview pr dF dT st r).acc k
      = (hasKey st.acc k || stepAny pr dF dT k r) := by
  unfold processReview stepAny
  by_cases hq : qualifies pr dF dT r = true
  · rw [if_pos hq]
    simp only []
    by_cases h1 : (r.state == "COMMENTED"
        && !(st.reviewsCommented.contains (joinKey pr.owner pr.repo r.reviewer))) = true
    · rw [if_pos h1]
      simp only []
      rw [hasKey_mapAt, hasKey_ensureKey]
      simp [hq]
    · rw [if_neg h1]
      by_cases h2 : (r.state == "APPROVED"
          && !(st.reviewsApproved.contains (joinKey pr.owner pr.repo r.reviewer))) = true
      · rw [if_pos h2]
        simp only []
        rw [hasKey_mapAt, hasKey_ensureKey]
        simp [hq]
      · rw [if_neg h2]
        simp only []
        rw [hasKey_ensureKey]
        simp [hq]
  · rw [if_neg hq]
    have hq' : qualifies pr dF dT r = false := Bool.eq_false_iff.mpr hq
    simp [hq']

lemma processReview_mcContains (pr : PullRequest) (dF dT : Int)
    (st : ReviewFoldState) (r : Review) (k : String) :
    (processReview pr dF dT st r).reviewsCommented.contains k
      = (st.reviewsCommented.contains k || stepC pr dF dT k r) := by
  unfold processReview stepC
  by_cases hq : qualifies pr dF dT r = true
  · rw [if_pos hq]
    simp only []
    by_cases h1 : (r.state == "COMMENTED"
        && !(st.reviewsCommented.contains (joinKey pr.owner pr.repo r.reviewer))) = true
    · rw [if_pos h1]
      simp only []
      rw [Bool.and_eq_true] at h1
      obtain ⟨hs, hnc⟩ := h1
      by_cases hk : joinKey pr.owner pr.repo r.reviewer = k
      · rw [hk] at hnc
        simp at hnc
        simp [hq, hs, hk, hnc]
      · simp [hk, Ne.symm hk]
    · rw [if_neg h1]
      by_cases h2 : (r.state == "APPROVED"
          && !(st.reviewsApproved.contains (joinKey pr.owner pr.repo r.reviewer))) = true
      · rw [if_pos h2]
        simp only []
        rw [Bool.and_eq_true, beq_iff_eq] at h2
        have hsc : (r.state == "COMMENTED") = false := by
          rw [h2.1]
          rfl
        simp [hsc]
      · rw [if_neg h2]
        simp only []
        rw [Bool.and_eq_true, not_and] at h1
        by_cases hs : (r.state == "COMMENTED") = true
        · have hc := h1 hs
          simp at hc
          by_cases hk : joinKey pr.owner pr.repo r.reviewer = k
          · rw [hk] at hc
            simp [hc]
          · simp [hk]
        · have hs' : (r.state == "COMMENTED") = false := Bool.eq_false_iff.mpr hs
          simp [hs']
  · rw [if_neg hq]
    have hq' : qualifies pr dF dT r = false := Bool.eq_false_iff.mpr hq
    simp [hq']

lemma processReview_maContains (pr : PullRequest) (dF dT : Int)
    (st : ReviewFoldState) (r : Review) (k : String) :
    (processReview pr dF dT st r).reviewsApproved.contains k
      = (st.reviewsApproved.contains k || stepA pr dF dT k r) := by
  unfold processReview stepA
  by_cases hq : qualifies pr dF dT r = true
  · rw [if_pos hq]
    simp only []
    by_cases h1 : (r.state == "COMMENTED"
        && !(st.reviewsCommented.contains (joinKey pr.owner pr.repo r.reviewer))) = true
    · rw [if_pos h1]
      simp only []
      rw [Bool.and_eq_true, beq_iff_eq] at h1
      have hsa : (r.state == "APPROVED") = false := by
        rw [h1.1]
        rfl
      simp [hsa]
    · rw [if_neg h1]
      by_cases h2 : (r.state == "APPROVED"
          && !(st.reviewsApproved.contains (joinKey pr.owner pr.repo r.reviewer))) = true
      · rw [if_pos h2]
        simp only []
        rw [Bool.and_eq_true] at h2
        obtain ⟨hs, hna⟩ := h2
        by_cases hk : joinKey pr.owner pr.repo r.reviewer = k
        · rw [hk] at hna
          simp at hna
          simp [hq, hs, hk, hna]
        · simp [hk, Ne.symm hk]
      · rw [if_neg h2]
        simp only []
        rw [Bool.and_eq_true, not_and] at h2
        by_cases hs : (r.state == "APPROVED") = true
        · have hc := h2 hs
          simp at hc
          by_cases hk : joinKey pr.owner pr.repo r.reviewer = k
          · rw [hk] at hc
            simp [hc]
          · simp [hk]
        · have hs' : (r.state == "APPROVED") = false := Bool.eq_false_iff.mpr hs
          simp [hs']
  · rw [if_neg hq]
    have hq' : qualifies pr dF dT r = false := Bool.eq_false_iff.mpr hq
    simp [hq']

/-! ### Review-loop and per-PR characterization -/

lemma foldReviews_createdAt (pr : PullRequest) (dF dT : Int)
    (rs : List Review) :
    ∀ (st : ReviewFoldState) (k : String),
      createdAt ((rs.foldl (processReview pr dF dT) st).acc) k
        = createdAt st.acc k := by
  induction rs with
  | nil => intro st k; rfl
  | cons r rest ih =>
    intro st k
    rw [List.foldl_cons, ih, processReview_createdAt]

lemma foldReviews_commentedAt (pr : PullRequest) (dF dT : Int)
    (rs : List Review) :
    ∀ (st : ReviewFoldState) (k : String),
      commentedAt ((rs.foldl (processReview pr dF dT) st).acc) k
        = commentedAt st.acc k
          + (if !(st.reviewsCommented.contains k) && rs.any (stepC pr dF dT k)
             then 1 else 0) := by
  induction rs with
  | nil => intro st k; simp
  | cons r rest ih =>
    intro st k
    rw [List.foldl_cons, ih, processReview_commentedAt, processReview_mcContains]
    cases hmc : st.reviewsCommented.contains k <;>
      cases hr : stepC pr dF dT k r <;>
      cases hrest : rest.any (stepC pr dF dT k) <;>
      simp [List.any_cons, hmc, hr, hrest]

lemma foldReviews_approvedAt (pr : PullRequest) (dF dT : Int)
    (rs : List Review) :
    ∀ (st : ReviewFoldState) (k : String),
      approvedAt ((rs.foldl (processReview pr dF dT) st).acc) k
        = approvedAt st.acc k
          + (if !(st.reviewsApproved.contains k) && rs.any (stepA pr dF dT k)
             then 1 else 0) := by
  induction rs with
  | nil => intro st k; simp
  | cons r rest ih =>
    intro st k
    rw [List.foldl_cons, ih, processReview_approvedAt, processReview_maContains]
    cases hma : st.reviewsApproved.contains k <;>
      cases hr : stepA pr dF dT k r <;>
      cases hrest : rest.any (stepA pr dF dT k) <;>
      simp [List.any_cons, hma, hr, hrest]

lemma foldReviews_hasKey (pr : PullRequest) (dF dT : Int)
    (rs : List Review) :
    ∀ (st : ReviewFoldState) (k : String),
      hasKey ((rs.foldl (processReview pr dF dT) st).acc) k
        = (hasKey st.acc k || rs.any (stepAny pr dF dT k)) := by
  induction rs with
  | nil => intro st k; simp
  | cons r rest ih =>
    intro st k
    rw [List.foldl_cons, ih, processReview_hasKey]
    simp [List.any_cons, Bool.or_assoc]

/-- The PR itself contributes to `created` at key `k`. -/
def prCreated (dF dT : Int) (k : String) (pr : PullRequest) : Bool :=
  inWindow pr.created_at dF dT && (authorKeyOf pr == k)

/-- Some review of the PR is a qualifying COMMENTED review keyed `k`. -/
def prCommented (dF dT : Int) (k : String) (pr : PullRequest) : Bool :=
  pr.reviews.any (stepC pr dF dT k)

/-- Some review of the PR is a qualifying APPROVED review keyed `k`. -/
def prApproved (dF dT : Int) (k : String) (pr : PullRequest) : Bool :=
  pr.reviews.any (stepA pr dF dT k)

/-- The PR makes key `k` exist: authored in window, or any qualifying
review keyed `k` (of any state). -/
def prTouches (dF dT : Int) (k : String) (pr : PullRequest) : Bool :=
  prCreated dF dT k pr || pr.reviews.any (stepAny pr dF dT k)

lemma foldReviews_commentedAt_init (pr : PullRequest) (dF dT : Int)
    (rs : List Review) (acc : StatMap) (k : String) :
    commentedAt ((rs.foldl (processReview pr dF dT) ⟨acc, [], []⟩).acc) k
      = commentedAt acc k + (if rs.any (stepC pr dF dT k) then 1 else 0) := by
  rw [foldReviews_commentedAt]
  simp

lemma foldReviews_approvedAt_init (pr : PullRequest) (dF dT : Int)
    (rs : List Review) (acc : StatMap) (k : String) :
    approvedAt ((rs.foldl (processReview pr dF dT) ⟨acc, [], []⟩).acc) k
      = approvedAt acc k + (if rs.any (stepA pr dF dT k) then 1 else 0) := by
  rw [foldReviews_approvedAt]
  simp

lemma processPR_createdAt (dF dT : Int) (acc : StatMap) (pr : PullRequest)
    (k : String) :
    createdAt (processPR dF dT acc pr) k
      = createdAt acc k + (if prCreated dF dT k pr then 1 else 0) := by
  unfold processPR prCreated
  rw [foldReviews_createdAt]
  by_cases hw : inWindow pr.created_at dF dT = true
  · rw [if_pos hw]
    simp only []
    rw [createdAt_bumpCreated]
    by_cases hk : authorKeyOf pr = k
    · simp [hw, hk]
    · simp [hw, hk]
  · rw [if_neg hw]
    have hw' : inWindow pr.created_at dF dT = false := Bool.eq_false_iff.mpr hw
    simp [hw']

lemma processPR_commentedAt (dF dT : Int) (acc : StatMap) (pr : PullRequest)
    (k : String) :
    commentedAt (processPR dF dT acc pr) k
      = commentedAt acc k + (if prCommented dF dT k pr then 1 else 0) := by
  unfold processPR prCommented
  rw [foldReviews_commentedAt_init]
  by_cases hw : inWindow pr.created_at dF dT = true
  · rw [if_pos hw]
    rw [commentedAt_bumpCreated]
  · rw [if_neg hw]

lemma processPR_approvedAt (dF dT : Int) (acc : StatMap) (pr : PullRequest)
    (k : String) :
    approvedAt (processPR dF dT acc pr) k
      = approvedAt acc k + (if prApproved dF dT k pr then 1 else 0) := by
  unfold processPR prApproved
  rw [foldReviews_approvedAt_init]
  by_cases hw : inWindow pr.created_at dF dT = true
  · rw [if_pos hw]
    rw [approvedAt_bumpCreated]
  · rw [if_neg hw]

lemma processPR_hasKey (dF dT : Int) (acc : StatMap) (pr : PullRequest)
    (k : String) :
    hasKey (processPR dF dT acc pr) k
      = (hasKey acc k || prTouches dF dT k pr) := by
  unfold processPR prTouches prCreated
  rw [foldReviews_hasKey]
  by_cases hw : inWindow pr.created_at dF dT = true
  · rw [if_pos hw]
    simp only []
    rw [hasKey_mapAt, hasKey_ensureKey]
    simp [hw, Bool.or_assoc]
  · rw [if_neg hw]
    have hw' : inWindow pr.created_at dF dT = false := Bool.eq_false_iff.mpr hw
    simp [hw', Bool.or_assoc]

/-! ### Whole-fold characterization of the grouped dictionary -/

lemma grouped_createdAt (dF dT : Int) (prs : List PullRequest) :
    ∀ (acc : StatMap) (k : String),
      createdAt (prs.foldl (processPR dF dT) acc) k
        = createdAt acc k + prs.countP (prCreated dF dT k) := by
  induction prs with
  | nil => intro acc k; simp
  | cons pr rest ih =>
    intro acc k
    rw [List.foldl_cons, ih, processPR_createdAt, List.countP_cons]
    by_cases h : prCreated dF dT k pr = true <;> simp [h] <;> omega

lemma grouped_commentedAt (dF dT : Int) (prs : List PullRequest) :
    ∀ (acc : StatMap) (k : String),
      commentedAt (prs.foldl (processPR dF dT) acc) k
        = commentedAt acc k + prs.countP (prCommented dF dT k) := by
  induction prs with
  | nil => intro acc k; simp
  | cons pr rest ih =>
    intro acc k
    rw [List.foldl_cons, ih, processPR_commentedAt, List.countP_cons]
    by_cases h : prCommented dF dT k pr = true <;> simp [h] <;> omega

lemma grouped_approvedAt (dF dT : Int) (prs : List PullRequest) :
    ∀ (acc : StatMap) (k : String),
      approvedAt (prs.foldl (processPR dF dT) acc) k
        = approvedAt acc k + prs.countP (prApproved dF dT k) := by
  induction prs with
  | nil => intro acc k; simp
  | cons pr rest ih =>
    intro acc k
    rw [List.foldl_cons, ih, processPR_approvedAt, List.countP_cons]
    by_cases h : prApproved dF dT k pr = true <;> simp [h] <;> omega

lemma grouped_hasKey (dF dT : Int) (prs : List PullRequest) :
    ∀ (acc : StatMap) (k : String),
      hasKey (prs.foldl (processPR dF dT) acc) k
        = (hasKey acc k || prs.any (prTouches dF dT k)) := by
  induction prs with
  | nil => intro acc k; simp
  | cons pr rest ih =>
    intro acc k
    rw [List.foldl_cons, ih, processPR_hasKey]
    simp [List.any_cons, Bool.or_assoc]

lemma groupedStats_createdAt (prs : List PullRequest) (dF dT : Int)
    (k : String) :
    createdAt (groupedStats prs dF dT) k = prs.countP (prCreated dF dT k) := by
  unfold groupedStats
  rw [grouped_createdAt]
  simp [createdAt, lookup, Counters.zero]

lemma groupedStats_commentedAt (prs : List PullRequest) (dF dT : Int)
    (k : String) :
    commentedAt (groupedStats prs dF dT) k
      = prs.countP (prCommented dF dT k) := by
  unfold groupedStats
  rw [grouped_commentedAt]
  simp [commentedAt, lookup, Counters.zero]

lemma groupedStats_approvedAt (prs : List PullRequest) (dF dT : Int)
    (k : String) :
    approvedAt (groupedStats prs dF dT) k = prs.countP (prApproved dF dT k) := by
  unfold groupedStats
  rw [grouped_approvedAt]
  simp [approvedAt, lookup, Counters.zero]

lemma groupedStats_hasKey (prs : List PullRequest) (dF dT : Int) (k : String) :
    hasKey (groupedStats prs dF dT) k = prs.any (prTouches dF dT k) := by
  unfold groupedStats
  rw [grouped_hasKey]
  simp [hasKey, lookup]

/-- Two stat maps agreeing on presence and on all three counters at `k`
store equal values at `k`. -/
lemma lookup_eq_of_stats (m m' : StatMap) (k : String)
    (h0 : hasKey m k = hasKey m' k) (h1 : createdAt m k = createdAt m' k)
    (h2 : commentedAt m k = commentedAt m' k)
    (h3 : approvedAt m k = approvedAt m' k) :
    lookup m k = lookup m' k := by
  unfold hasKey at h0
  unfold createdAt at h1
  unfold commentedAt at h2
  unfold approvedAt at h3
  cases hm : lookup m k with
  | none =>
    cases hm' : lookup m' k with
    | none => rfl
    | some v =>
      rw [hm, hm'] at h0
      simp at h0
  | some v =>
    cases hm' : lookup m' k with
    | none =>
      rw [hm, hm'] at h0
      simp at h0
    | some v' =>
      rw [hm, hm'] at h1 h2 h3
      obtain ⟨c1, c2, c3⟩ := v
      obtain ⟨c1', c2', c3'⟩ := v'
      simp at h1 h2 h3
      rw [h1, h2, h3]

/-! ### Self-reviews and review-order helpers -/

lemma foldl_congr_fun {α β : Type} {f g : β → α → β} (h : ∀ b a, f b a = g b a) :
    ∀ (l : List α) (b : β), l.foldl f b = l.foldl g b := by
  intro l
  induction l with
  | nil => intro b; rfl
  | cons a rest ih =>
    intro b
    rw [List.foldl_cons, List.foldl_cons, h, ih]

/-- A self-review leaves the whole review-fold state unchanged:
`alignReview` is false so the body is skipped. -/
lemma processReview_self (pr : PullRequest) (dF dT : Int)
    (st : ReviewFoldState) (r : Review) (h : r.reviewer = pr.author) :
    processReview pr dF dT st r = st := by
  unfold processReview qualifies
  rw [h]
  simp


def stripSelfReviews (pr : PullRequest) : PullRequest :=
  { pr with reviews := pr.reviews.filter (fun r => r.reviewer != pr.author) }

/-- `stripSelfReviews` only changes the review list; the step function
reads only `owner`, `repo`, `author`. -/
lemma processReview_strip (pr : PullRequest) (dF dT : Int) :
    processReview (stripSelfReviews pr) dF dT = processReview pr dF dT := rfl

lemma foldl_processReview_filter_self (pr : PullRequest) (dF dT : Int) :
    ∀ (rs : List Review) (st : ReviewFoldState),
      (rs.filter (fun r => r.reviewer != pr.author)).foldl
          (processReview pr dF dT) st
        = rs.foldl (processReview pr dF dT) st := by
  intro rs
  induction rs with
  | nil => intro st; rfl
  | cons r rest ih =>
    intro st
    rw [List.filter_cons]
    by_cases h : (r.reviewer != pr.author) = true
    · rw [if_pos h, List.foldl_cons, List.foldl_cons, ih]
    · have h' : r.reviewer = pr.author := by
        simpa using h
      rw [if_neg h, List.foldl_cons,
        processReview_self pr dF dT st r h', ih]

lemma processPR_strip (dF dT : Int) (acc : StatMap) (pr : PullRequest) :
    processPR dF dT acc (stripSelfReviews pr) = processPR dF dT acc pr := by
  show ((pr.reviews.filter (fun r => r.reviewer != pr.author)).foldl
      (processReview (stripSelfReviews pr) dF dT)
      ⟨if inWindow pr.created_at dF dT then
          mapAt (ensureKey acc (authorKeyOf pr) Counters.zero) (authorKeyOf pr)
            bumpCreated
        else acc, [], []⟩).acc
    = processPR dF dT acc pr
  rw [processReview_strip, foldl_processReview_filter_self]
  rfl

lemma perm_any {α : Type} {l l' : List α} (h : l.Perm l') (p : α → Bool) :
    l.any p = l'.any p := by
  cases ha : l.any p with
  | true =>
    rw [List.any_eq_true] at ha
    obtain ⟨x, hx, hpx⟩ := ha
    exact (List.any_eq_true.mpr ⟨x, h.mem_iff.mp hx, hpx⟩).symm
  | false =>
    cases hb : l'.any p with
    | false => rfl
    | true =>
      rw [List.any_eq_true] at hb
      obtain ⟨x, hx, hpx⟩ := hb
      have hcontra := List.any_eq_true.mpr ⟨x, h.mem_iff.mpr hx, hpx⟩
      rw [ha] at hcontra
      cases hcontra

lemma prCreated_set_reviews (dF dT : Int) (k : String) (pr : PullRequest)
    (rs' : List Review) :
    prCreated dF dT k { pr with reviews := rs' } = prCreated dF dT k pr := rfl

lemma prCommented_perm (dF dT : Int) (k : String) (pr : PullRequest)
    (rs' : List Review) (h : pr.reviews.Perm rs') :
    prCommented dF dT k { pr with reviews := rs' } = prCommented dF dT k pr := by
  show rs'.any (stepC pr dF dT k) = pr.reviews.any (stepC pr dF dT k)
  exact (perm_any h _).symm

lemma prApproved_perm (dF dT : Int) (k : String) (pr : PullRequest)
    (rs' : List Review) (h : pr.reviews.Perm rs') :
    prApproved dF dT k { pr with reviews := rs' } = prApproved dF dT k pr := by
  show rs'.any (stepA pr dF dT k) = pr.reviews.any (stepA pr dF dT k)
  exact (perm_any h _).symm

lemma prTouches_perm (dF dT : Int) (k : String) (pr : PullRequest)
    (rs' : List Review) (h : pr.reviews.Perm rs') :
    prTouches dF dT k { pr with reviews := rs' } = prTouches dF dT k pr := by
  show (prCreated dF dT k pr || rs'.any (stepAny pr dF dT k))
      = (prCreated dF dT k pr || pr.reviews.any (stepAny pr dF dT k))
  rw [perm_any h]

/-! ### Claim theorems (first group) -/

/-- Claim C1: in `getDetailedStats` (whose reduce body is `processPR`),
processing one pull request adds to the `commented` (resp. `approved`)
counter of any row key exactly the 0/1 indicator of the existence of a
qualifying COMMENTED (resp. APPROVED) review keyed there — so for two
qualifying reviews by the same reviewer with the same state on the same
pull request only one increments the counter, and the others are silently
skipped with no increment and no error. -/
theorem commented_approved_at_most_once_per_pr (dF dT : Int) (acc : StatMap)
    (pr : PullRequest) (k : String) :
    commentedAt (processPR dF dT acc pr) k
      = commentedAt acc k + (if prCommented dF dT k pr then 1 else 0)
    ∧ approvedAt (processPR dF dT acc pr) k
      = approvedAt acc k + (if prApproved dF dT k pr then 1 else 0) :=
  ⟨processPR_commentedAt dF dT acc pr k, processPR_approvedAt dF dT acc pr k⟩

/-- Claim C3: a review whose reviewer equals the pull request author never
increments any counter: deleting all self-reviews from every pull request
leaves the output of `getDetailedStats` unchanged, for any window. -/
theorem self_reviews_never_count (prs : List PullRequest) (dF dT : Int) :
    getDetailedStats (prs.map stripSelfReviews) dF dT
      = getDetailedStats prs dF dT := by
  unfold getDetailedStats groupedStats
  rw [List.foldl_map]
  congr 1
  exact foldl_congr_fun (fun acc pr => processPR_strip dF dT acc pr) prs []

/-- Claim C4: the window check used for counting both pull-request creation
events and review submissions is a strict open interval: it accepts exactly
the timestamps with `dateFrom < t < dateTo`, and rejects a timestamp equal
to either boundary. -/
theorem interval_check_strict_open (t dF dT : Int) :
    (inWindow t dF dT = true ↔ dF < t ∧ t < dT)
    ∧ inWindow dF dF dT = false
    ∧ inWindow dT dF dT = false := by
  refine ⟨?_, ?_, ?_⟩ <;> simp [inWindow]

/-- Claim C5: `filterPullRequestList` keeps a pull request iff its state is
`"open"` or its creation timestamp lies strictly inside the window; in
particular every open pull request is kept regardless of its date. -/
theorem filterPullRequestList_keeps_iff (pr : PullRequest) (dF dT : Int) :
    filterPullRequestList pr dF dT = true
      ↔ (pr.state = "open" ∨ (dF < pr.created_at ∧ pr.created_at < dT)) := by
  simp [filterPullRequestList]

/-- Claim C6: a pull request whose state is `"open"` but whose creation
timestamp is outside the window contributes nothing to any `created`
counter, while its reviews are still folded over the accumulator exactly
as usual. -/
theorem open_pr_outside_window_counts_zero_created (pr : PullRequest)
    (dF dT : Int) (acc : StatMap) (_hopen : pr.state = "open")
    (hout : inWindow pr.created_at dF dT = false) :
    processPR dF dT acc pr
        = (pr.reviews.foldl (processReview pr dF dT) ⟨acc, [], []⟩).acc
    ∧ ∀ k, createdAt (processPR dF dT acc pr) k = createdAt acc k := by
  constructor
  · show (pr.reviews.foldl (processReview pr dF dT)
        ⟨if inWindow pr.created_at dF dT then
            mapAt (ensureKey acc (authorKeyOf pr) Counters.zero)
              (authorKeyOf pr) bumpCreated
          else acc, [], []⟩).acc
      = (pr.reviews.foldl (processReview pr dF dT) ⟨acc, [], []⟩).acc
    rw [if_neg (by simp [hout])]
  · intro k
    rw [processPR_createdAt]
    have hc : prCreated dF dT k pr = false := by
      unfold prCreated
      rw [hout]
      rfl
    rw [hc]
    simp

theorem open_pr_outside_window_witness :
    (⟨"o", "r", "a", "open", 100, [⟨"COMMENTED", "b", 5⟩]⟩ : PullRequest).state
        = "open"
    ∧ inWindow 100 0 10 = false
    ∧ createdAt (processPR 0 10 []
          ⟨"o", "r", "a", "open", 100, [⟨"COMMENTED", "b", 5⟩]⟩)
          (joinKey "o" "r" "a")
        = createdAt ([] : StatMap) (joinKey "o" "r" "a") :=
  ⟨rfl, by decide,
    (open_pr_outside_window_counts_zero_created
      ⟨"o", "r", "a", "open", 100, [⟨"COMMENTED", "b", 5⟩]⟩ 0 10 [] rfl
      (by decide)).2 (joinKey "o" "r" "a")⟩

/-- Claim C9: both aggregation operations map an empty input collection to
an empty output collection, raising no error. -/
theorem empty_inputs_give_empty_outputs (dF dT : Int) :
    getDetailedStats [] dF dT = [] ∧ getSummary [] = [] :=
  ⟨rfl, rfl⟩

/-- Claim C10: permuting the review sequence of any one pull request leaves
the grouped statistics unchanged at every key — each counter depends only on
the existence of a qualifying review, not on encounter order. -/
theorem review_order_irrelevant (pre post : List PullRequest)
    (pr : PullRequest) (rs' : List Review) (hperm : pr.reviews.Perm rs')
    (dF dT : Int) (k : String) :
    lookup (groupedStats (pre ++ pr :: post) dF dT) k
      = lookup (groupedStats (pre ++ { pr with reviews := rs' } :: post) dF dT)
          k := by
  apply lookup_eq_of_stats
  · rw [groupedStats_hasKey, groupedStats_hasKey]
    simp only [List.any_append, List.any_cons]
    rw [prTouches_perm dF dT k pr rs' hperm]
  · rw [groupedStats_createdAt, groupedStats_createdAt]
    simp only [List.countP_append, List.countP_cons]
    rw [prCreated_set_reviews dF dT k pr rs']
  · rw [groupedStats_commentedAt, groupedStats_commentedAt]
    simp only [List.countP_append, List.countP_cons]
    rw [prCommented_perm dF dT k pr rs' hperm]
  · rw [groupedStats_approvedAt, groupedStats_approvedAt]
    simp only [List.countP_append, List.countP_cons]
    rw [prApproved_perm dF dT k pr rs' hperm]

theorem review_order_irrelevant_witness :
    lookup (groupedStats [⟨"o", "r", "a", "open", 5,
          [⟨"COMMENTED", "b", 6⟩, ⟨"APPROVED", "c", 7⟩]⟩] 0 10)
        (joinKey "o" "r" "b")
      = lookup (groupedStats [⟨"o", "r", "a", "open", 5,
          [⟨"APPROVED", "c", 7⟩, ⟨"COMMENTED", "b", 6⟩]⟩] 0 10)
        (joinKey "o" "r" "b") :=
  review_order_irrelevant [] []
    ⟨"o", "r", "a", "open", 5, [⟨"COMMENTED", "b", 6⟩, ⟨"APPROVED", "c", 7⟩]⟩
    [⟨"APPROVED", "c", 7⟩, ⟨"COMMENTED", "b", 6⟩] (List.Perm.swap _ _ _) 0 10
    (joinKey "o" "r" "b")

/-! ### Uniqueness of keys in the grouped dictionary -/

def keysOf {α : Type} (m : List (String × α)) : List String := m.map Prod.fst

lemma hasKey_iff_mem_keys {α : Type} (m : List (String × α)) (k : String) :
    hasKey m k = true ↔ k ∈ keysOf m := by
  induction m with
  | nil => simp [hasKey, lookup, keysOf]
  | cons p rest ih =>
    obtain ⟨k', v⟩ := p
    by_cases hk : k' = k
    · simp [hasKey, lookup, keysOf, hk]
    · simp only [hasKey, lookup, if_neg hk, keysOf, List.map_cons,
        List.mem_cons]
      constructor
      · intro hs
        exact Or.inr ((ih).mp hs)
      · intro hs
        cases hs with
        | inl hh => exact absurd hh.symm hk
        | inr hh => exact (ih).mpr hh

lemma keys_nodup_ensureKey {α : Type} (m : List (String × α)) (k : String)
    (z : α) (h : (keysOf m).Nodup) : (keysOf (ensureKey m k z)).Nodup := by
  unfold ensureKey
  cases hl : lookup m k with
  | some v => exact h
  | none =>
    have hk : k ∉ keysOf m := by
      intro hmem
      have hh := (hasKey_iff_mem_keys m k).mpr hmem
      rw [hasKey, hl] at hh
      cases hh
    unfold keysOf
    rw [List.map_append]
    rw [List.nodup_append]
    refine ⟨h, List.nodup_singleton k, ?_⟩
    intro a ha hb
    simp at hb
    rw [hb] at ha
    exact hk ha

lemma keys_mapAt {α : Type} (m : List (String × α)) (k : String) (f : α → α) :
    keysOf (mapAt m k f) = keysOf m := by
  induction m with
  | nil => rfl
  | cons p rest ih =>
    obtain ⟨k', v⟩ := p
    by_cases hk : k' = k
    · simp [mapAt, keysOf, hk]
    · simp only [mapAt, if_neg hk, keysOf, List.map_cons] at ih ⊢
      rw [ih]

lemma keys_nodup_processReview (pr : PullRequest) (dF dT : Int)
    (st : ReviewFoldState) (r : Review) (h : (keysOf st.acc).Nodup) :
    (keysOf (processReview pr dF dT st r).acc).Nodup := by
  unfold processReview
  by_cases hq : qualifies pr dF dT r = true
  · rw [if_pos hq]
    simp only []
    by_cases h1 : (r.state == "COMMENTED"
        && !(st.reviewsCommented.contains (joinKey pr.owner pr.repo r.reviewer))) = true
    · rw [if_pos h1]
      simp only []
      rw [keys_mapAt]
      exact keys_nodup_ensureKey _ _ _ h
    · rw [if_neg h1]
      by_cases h2 : (r.state == "APPROVED"
          && !(st.reviewsApproved.contains (joinKey pr.owner pr.repo r.reviewer))) = true
      · rw [if_pos h2]
        simp only []
        rw [keys_mapAt]
        exact keys_nodup_ensureKey _ _ _ h
      · rw [if_neg h2]
        simp only []
        exact keys_nodup_ensureKey _ _ _ h
  · rw [if_neg hq]
    exact h

lemma keys_nodup_foldReviews (pr : PullRequest) (dF dT : Int)
    (rs : List Review) :
    ∀ (st : ReviewFoldState), (keysOf st.acc).Nodup →
      (keysOf ((rs.foldl (processReview pr dF dT) st).acc)).Nodup := by
  induction rs with
  | nil => intro st h; exact h
  | cons r rest ih =>
    intro st h
    rw [List.foldl_cons]
    exact ih _ (keys_nodup_processReview pr dF dT st r h)

lemma keys_nodup_processPR (dF dT : Int) (acc : StatMap) (pr : PullRequest)
    (h : (keysOf acc).Nodup) : (keysOf (processPR dF dT acc pr)).Nodup := by
  unfold processPR
  apply keys_nodup_foldReviews
  by_cases hw : inWindow pr.created_at dF dT = true
  · rw [if_pos hw]
    simp only []
    rw [keys_mapAt]
    exact keys_nodup_ensureKey _ _ _ h
  · rw [if_neg hw]
    exact h

lemma groupedStats_keys_nodup (prs : List PullRequest) (dF dT : Int) :
    (keysOf (groupedStats prs dF dT)).Nodup := by
  unfold groupedStats
  have hgen : ∀ (acc : StatMap), (keysOf acc).Nodup →
      (keysOf (prs.foldl (processPR dF dT) acc)).Nodup := by
    induction prs with
    | nil => intro acc h; exact h
    | cons pr rest ih =>
      intro acc h
      rw [List.foldl_cons]
      exact ih _ (keys_nodup_processPR dF dT acc pr h)
  exact hgen [] List.nodup_nil

lemma lookup_of_mem_nodup {α : Type} {m : List (String × α)}
    (hnd : (keysOf m).Nodup) {k : String} {v : α} (hm : (k, v) ∈ m) :
    lookup m k = some v := by
  induction m with
  | nil => cases hm
  | cons p rest ih =>
    obtain ⟨k', v'⟩ := p
    rw [List.mem_cons] at hm
    unfold keysOf at hnd
    rw [List.map_cons, List.nodup_cons] at hnd
    cases hm with
    | inl hh =>
      have hk : k' = k := (congrArg Prod.fst hh).symm
      have hv : v' = v := (congrArg Prod.snd hh).symm
      simp [lookup, hk, hv]
    | inr hh =>
      by_cases hk : k' = k
      · exfalso
        apply hnd.1
        rw [hk]
        exact (hasKey_iff_mem_keys rest k).mp (by
          have : lookup rest k = some v := ih hnd.2 hh
          rw [hasKey, this]
          rfl)
      · simp only [lookup, if_neg hk]
        exact ih hnd.2 hh

lemma eq_of_mem_same_key {α : Type} {m : List (String × α)}
    (hnd : (keysOf m).Nodup) {e e' : String × α} (he : e ∈ m) (he' : e' ∈ m)
    (hk : e.1 = e'.1) : e = e' := by
  obtain ⟨k, v⟩ := e
  obtain ⟨k', v'⟩ := e'
  simp at hk
  subst hk
  have h1 := lookup_of_mem_nodup hnd he
  have h2 := lookup_of_mem_nodup hnd he'
  rw [h1] at h2
  injection h2 with h2
  rw [h2]

/-! ### Claim C7: all-zero rows -/

/-- The row has some nonzero activity. -/
def hasActivity (row : DetailedRow) : Bool :=
  decide (0 < row.created) || decide (0 < row.commented)
    || decide (0 < row.approved)

/-- Claim C7 is false as stated: a qualifying review whose state is neither
COMMENTED nor APPROVED creates the reviewer row before the state test, and
nothing increments it, so an all-zero row is emitted. -/
theorem all_zero_row_counterexample :
    getDetailedStats
        [⟨"o", "r", "a", "closed", 100, [⟨"CHANGES_REQUESTED", "b", 5⟩]⟩] 0 10
      = [⟨"o", "r", "b", 0, 0, 0⟩]
    ∧ (getDetailedStats
        [⟨"o", "r", "a", "closed", 100, [⟨"CHANGES_REQUESTED", "b", 5⟩]⟩] 0
        10).all hasActivity = false := by
  constructor
  · decide
  · decide

/-- Claim C7 (amended): if every in-window non-self review has state
COMMENTED or APPROVED, then every row produced by `getDetailedStats` has
nonzero activity. The amendment carves out exactly the counterexample:
a qualifying review of any other state yields an all-zero row. -/
theorem no_all_zero_rows_amended (prs : List PullRequest) (dF dT : Int)
    (h : ∀ pr ∈ prs, ∀ r ∈ pr.reviews, qualifies pr dF dT r = true →
        r.state = "COMMENTED" ∨ r.state = "APPROVED") :
    ∀ row ∈ getDetailedStats prs dF dT, hasActivity row = true := by
  intro row hrow
  unfold getDetailedStats at hrow
  rw [List.mem_map] at hrow
  obtain ⟨e, he, hrowe⟩ := hrow
  have hnd := groupedStats_keys_nodup prs dF dT
  have hl : lookup (groupedStats prs dF dT) e.1 = some e.2 :=
    lookup_of_mem_nodup hnd (by
      obtain ⟨k, v⟩ := e
      exact he)
  have hk : hasKey (groupedStats prs dF dT) e.1 = true := by
    rw [hasKey, hl]
    rfl
  rw [groupedStats_hasKey, List.any_eq_true] at hk
  obtain ⟨pr, hpr, htouch⟩ := hk
  have hcreated : e.2.created = List.countP (prCreated dF dT e.1) prs := by
    rw [← groupedStats_createdAt prs dF dT e.1]
    unfold createdAt
    rw [hl]
    rfl
  have hcommented : e.2.commented
      = List.countP (prCommented dF dT e.1) prs := by
    rw [← groupedStats_commentedAt prs dF dT e.1]
    unfold commentedAt
    rw [hl]
    rfl
  have happroved : e.2.approved = List.countP (prApproved dF dT e.1) prs := by
    rw [← groupedStats_approvedAt prs dF dT e.1]
    unfold approvedAt
    rw [hl]
    rfl
  rw [← hrowe]
  unfold hasActivity rowOfEntry
  simp only []
  unfold prTouches at htouch
  rw [Bool.or_eq_true] at htouch
  cases htouch with
  | inl hcr =>
    have hpos : 0 < List.countP (prCreated dF dT e.1) prs :=
      List.countP_pos_iff.mpr ⟨pr, hpr, hcr⟩
    rw [← hcreated] at hpos
    simp [hpos]
  | inr hany =>
    rw [List.any_eq_true] at hany
    obtain ⟨r, hr, hstep⟩ := hany
    unfold stepAny at hstep
    rw [Bool.and_eq_true] at hstep
    obtain ⟨hq, hkey⟩ := hstep
    cases h pr hpr r hr hq with
    | inl hC =>
      have hstepC : stepC pr dF dT e.1 r = true := by
        unfold stepC
        rw [hq, hkey, hC]
        rfl
      have hprC : prCommented dF dT e.1 pr = true := by
        unfold prCommented
        rw [List.any_eq_true]
        exact ⟨r, hr, hstepC⟩
      have hpos : 0 < List.countP (prCommented dF dT e.1) prs :=
        List.countP_pos_iff.mpr ⟨pr, hpr, hprC⟩
      rw [← hcommented] at hpos
      simp [hpos]
    | inr hA =>
      have hstepA : stepA pr dF dT e.1 r = true := by
        unfold stepA
        rw [hq, hkey, hA]
        rfl
      have hprA : prApproved dF dT e.1 pr = true := by
        unfold prApproved
        rw [List.any_eq_true]
        exact ⟨r, hr, hstepA⟩
      have hpos : 0 < List.countP (prApproved dF dT e.1) prs :=
        List.countP_pos_iff.mpr ⟨pr, hpr, hprA⟩
      rw [← happroved] at hpos
      simp [hpos]

theorem no_all_zero_rows_witness :
    hasActivity ⟨"o", "r", "b", 0, 1, 0⟩ = true :=
  no_all_zero_rows_amended
    [⟨"o", "r", "a", "open", 5, [⟨"COMMENTED", "b", 6⟩]⟩] 0 10 (by decide)
    ⟨"o", "r", "b", 0, 1, 0⟩ (by decide)

/-! ### Claim C8: row keys and the `/` separator -/

lemma splitOnChar_ne_nil (sep : Char) (l : List Char) :
    splitOnChar sep l ≠ [] := by
  cases l with
  | nil => simp [splitOnChar]
  | cons c rest =>
    unfold splitOnChar
    cases splitOnChar sep rest with
    | nil => simp
    | cons p ps => by_cases h : c = sep <;> simp [h]

lemma splitOnChar_no_sep (sep : Char) (xs : List Char) (h : sep ∉ xs) :
    splitOnChar sep xs = [xs] := by
  induction xs with
  | nil => rfl
  | cons c rest ih =>
    rw [List.mem_cons] at h
    push_neg at h
    show splitOnChar sep (c :: rest) = [c :: rest]
    unfold splitOnChar
    rw [ih h.2]
    simp [Ne.symm h.1]

lemma splitOnChar_append (sep : Char) (xs ys : List Char) (h : sep ∉ xs) :
    splitOnChar sep (xs ++ sep :: ys) = xs :: splitOnChar sep ys := by
  induction xs with
  | nil =>
    show splitOnChar sep (sep :: ys) = [] :: splitOnChar sep ys
    have heq : splitOnChar sep (sep :: ys)
        = match splitOnChar sep ys with
          | [] => [[]]
          | p :: ps => if sep = sep then [] :: p :: ps else (sep :: p) :: ps :=
      rfl
    cases hs : splitOnChar sep ys with
    | nil => exact absurd hs (splitOnChar_ne_nil sep ys)
    | cons p ps =>
      rw [heq, hs]
      simp
  | cons c rest ih =>
    rw [List.mem_cons] at h
    push_neg at h
    show splitOnChar sep (c :: (rest ++ sep :: ys))
      = (c :: rest) :: splitOnChar sep ys
    have heq : splitOnChar sep (c :: (rest ++ sep :: ys))
        = match splitOnChar sep (rest ++ sep :: ys) with
          | [] => [[]]
          | p :: ps => if c = sep then [] :: p :: ps else (c :: p) :: ps :=
      rfl
    rw [heq, ih h.2]
    simp [Ne.symm h.1]

lemma splitKey_joinKey (o r a : String) (ho : ('/' : Char) ∉ o.data)
    (hr : ('/' : Char) ∉ r.data) (ha : ('/' : Char) ∉ a.data) :
    splitKey (joinKey o r a) = [o, r, a] := by
  unfold splitKey joinKey
  have hdata : (o ++ "/" ++ r ++ "/" ++ a).data
      = o.data ++ '/' :: (r.data ++ '/' :: a.data) := by
    simp [String.data_append]
  rw [hdata, splitOnChar_append _ _ _ ho, splitOnChar_append _ _ _ hr,
    splitOnChar_no_sep _ _ ha]
  rfl

/-- Any key present in the grouped dictionary is the join of the owner and
repo of some input pull request with either its author or the reviewer of
one of its reviews. -/
lemma grouped_key_provenance (prs : List PullRequest) (dF dT : Int)
    (k : String) (hk : hasKey (groupedStats prs dF dT) k = true) :
    ∃ pr ∈ prs, ∃ x : String, k = joinKey pr.owner pr.repo x
      ∧ (x = pr.author ∨ ∃ r ∈ pr.reviews, r.reviewer = x) := by
  rw [groupedStats_hasKey, List.any_eq_true] at hk
  obtain ⟨pr, hpr, htouch⟩ := hk
  unfold prTouches at htouch
  rw [Bool.or_eq_true] at htouch
  cases htouch with
  | inl hcr =>
    unfold prCreated at hcr
    rw [Bool.and_eq_true, beq_iff_eq] at hcr
    exact ⟨pr, hpr, pr.author, hcr.2.symm, Or.inl rfl⟩
  | inr hany =>
    rw [List.any_eq_true] at hany
    obtain ⟨r, hr, hstep⟩ := hany
    unfold stepAny at hstep
    rw [Bool.and_eq_true, beq_iff_eq] at hstep
    exact ⟨pr, hpr, r.reviewer, hstep.2.symm, Or.inr ⟨r, hr, rfl⟩⟩

/-- Claim C8 is false as stated: owner, repo, author are joined with `/`
into a single string key and split back on `/`, so names containing `/`
are mis-decomposed, and two distinct (owner, repo, author) triples can
yield rows carrying the same displayed triple. -/
theorem row_key_triple_counterexample :
    getDetailedStats
        [⟨"a", "b", "c/d", "open", 5, []⟩, ⟨"a", "b", "c/e", "open", 5, []⟩]
        0 10
      = [⟨"a", "b", "c", 1, 0, 0⟩, ⟨"a", "b", "c", 1, 0, 0⟩]
    ∧ ¬ ((getDetailedStats
        [⟨"a", "b", "c/d", "open", 5, []⟩, ⟨"a", "b", "c/e", "open", 5, []⟩]
        0 10).map (fun row => (row.owner, row.repo, row.author))).Nodup := by
  constructor
  · decide
  · decide

/-- Claim C8 (amended): provided no owner, repo, author or reviewer name
contains the character `/`, the detailed rows are keyed exactly by the
(owner, repo, actor) triple: the displayed triples are pairwise distinct
(at most one row per triple, distinct triples never merged), and every
row's owner and repo are those of an input pull request, with the row
author either that pull request's author or one of its reviewers. -/
theorem rows_keyed_by_triple_amended (prs : List PullRequest) (dF dT : Int)
    (h : ∀ pr ∈ prs, ('/' : Char) ∉ pr.owner.data
        ∧ ('/' : Char) ∉ pr.repo.data ∧ ('/' : Char) ∉ pr.author.data
        ∧ ∀ r ∈ pr.reviews, ('/' : Char) ∉ r.reviewer.data) :
    ((getDetailedStats prs dF dT).map
        (fun row => (row.owner, row.repo, row.author))).Nodup
    ∧ ∀ row ∈ getDetailedStats prs dF dT, ∃ pr ∈ prs,
        pr.owner = row.owner ∧ pr.repo = row.repo
        ∧ (pr.author = row.author ∨ ∃ r ∈ pr.reviews, r.reviewer = row.author) := by
  have hshape : ∀ e ∈ groupedStats prs dF dT,
      splitKey e.1 = [(splitKey e.1).getD 0 "", (splitKey e.1).getD 1 "",
        (splitKey e.1).getD 2 ""]
      ∧ e.1 = joinKey ((splitKey e.1).getD 0 "") ((splitKey e.1).getD 1 "")
          ((splitKey e.1).getD 2 "")
      ∧ ∃ pr ∈ prs, pr.owner = (splitKey e.1).getD 0 ""
          ∧ pr.repo = (splitKey e.1).getD 1 ""
          ∧ (pr.author = (splitKey e.1).getD 2 ""
             ∨ ∃ r ∈ pr.reviews, r.reviewer = (splitKey e.1).getD 2 "") := by
    intro e he
    have hl : lookup (groupedStats prs dF dT) e.1 = some e.2 :=
      lookup_of_mem_nodup (groupedStats_keys_nodup prs dF dT) (by
        obtain ⟨k, v⟩ := e
        exact he)
    have hk : hasKey (groupedStats prs dF dT) e.1 = true := by
      rw [hasKey, hl]
      rfl
    obtain ⟨pr, hpr, x, hkey, hx⟩ := grouped_key_provenance prs dF dT e.1 hk
    obtain ⟨ho, hrep, hau, hrev⟩ := h pr hpr
    have hxs : ('/' : Char) ∉ x.data := by
      cases hx with
      | inl hh =>
        rw [hh]
        exact hau
      | inr hh =>
        obtain ⟨r, hr, hrx⟩ := hh
        rw [← hrx]
        exact hrev r hr
    have hsplit : splitKey e.1 = [pr.owner, pr.repo, x] := by
      rw [hkey]
      exact splitKey_joinKey pr.owner pr.repo x ho hrep hxs
    refine ⟨?_, ?_, pr, hpr, ?_, ?_, ?_⟩
    · rw [hsplit]
      rfl
    · rw [hsplit, hkey]
      rfl
    · rw [hsplit]
      rfl
    · rw [hsplit]
      rfl
    · rw [hsplit]
      show pr.author = x ∨ ∃ r ∈ pr.reviews, r.reviewer = x
      cases hx with
      | inl hh => exact Or.inl hh.symm
      | inr hh => exact Or.inr hh
  constructor
  · unfold getDetailedStats
    rw [List.map_map]
    have hnd := groupedStats_keys_nodup prs dF dT
    have hentries : (groupedStats prs dF dT).Nodup := by
      unfold keysOf at hnd
      exact List.Nodup.of_map Prod.fst hnd
    apply List.Nodup.map_on ?_ hentries
    intro e he e' he' heq
    simp only [Function.comp] at heq
    have h1 := hshape e he
    have h2 := hshape e' he'
    unfold rowOfEntry at heq
    simp only [Prod.mk.injEq] at heq
    apply eq_of_mem_same_key hnd he he'
    rw [h1.2.1, h2.2.1, heq.1, heq.2.1, heq.2.2]
  · intro row hrow
    unfold getDetailedStats at hrow
    rw [List.mem_map] at hrow
    obtain ⟨e, he, hrowe⟩ := hrow
    obtain ⟨hsp, hjoin, pr, hpr, ho, hrep, hau⟩ := hshape e he
    refine ⟨pr, hpr, ?_, ?_, ?_⟩
    · rw [← hrowe]
      exact ho
    · rw [← hrowe]
      exact hrep
    · rw [← hrowe]
      exact hau

theorem rows_keyed_by_triple_witness :
    ((getDetailedStats [⟨"o", "r", "a", "open", 5, [⟨"COMMENTED", "b", 6⟩]⟩]
        0 10).map (fun row => (row.owner, row.repo, row.author))).Nodup :=
  (rows_keyed_by_triple_amended
    [⟨"o", "r", "a", "open", 5, [⟨"COMMENTED", "b", 6⟩]⟩] 0 10 (by decide)).1

/-! ### Claim C2: the summary fold -/

lemma summaryStep_lookup_self (acc : SummaryMap) (item : DetailedRow) :
    lookup (summaryStep acc item) item.author
      = some (applyRow ((lookup acc item.author).getD SummaryAcc.zero) item) := by
  unfold summaryStep
  rw [lookup_bumpAt_self]

lemma summaryStep_lookup_ne (acc : SummaryMap) (item : DetailedRow)
    (a : String) (h : item.author ≠ a) :
    lookup (summaryStep acc item) a = lookup acc a := by
  unfold summaryStep
  exact lookup_bumpAt_ne _ _ _ _ _ h

lemma summaryFold_lookup (rows : List DetailedRow) :
    ∀ (acc : SummaryMap) (a : String),
      lookup (rows.foldl summaryStep acc) a
        = if (lookup acc a).isSome || rows.any (fun row => row.author == a)
          then some ((rows.filter (fun row => row.author == a)).foldl applyRow
                 ((lookup acc a).getD SummaryAcc.zero))
          else none := by
  induction rows with
  | nil =>
    intro acc a
    cases h : lookup acc a with
    | none => simp [h]
    | some v => simp [h]
  | cons row rest ih =>
    intro acc a
    rw [List.foldl_cons, ih]
    by_cases hb : row.author = a
    · have h1 := summaryStep_lookup_self acc row
      rw [hb] at h1
      rw [h1, List.filter_cons, List.any_cons]
      have hbeq : (row.author == a) = true := beq_iff_eq.mpr hb
      rw [hbeq]
      simp
    · have h1 : lookup (summaryStep acc row) a = lookup acc a :=
        summaryStep_lookup_ne acc row a hb
      rw [h1, List.filter_cons, List.any_cons]
      have hbeq : (row.author == a) = false := by
        simp [hb]
      rw [hbeq]
      simp

lemma foldl_applyRow_pull_requests (L : List DetailedRow) :
    ∀ v : SummaryAcc, (L.foldl applyRow v).pull_requests
      = v.pull_requests + (L.map (fun row => row.created)).sum := by
  induction L with
  | nil => intro v; simp
  | cons r rest ih =>
    intro v
    rw [List.foldl_cons, ih, List.map_cons, List.sum_cons]
    show (applyRow v r).pull_requests + _ = _
    unfold applyRow
    simp only []
    omega

lemma foldl_applyRow_commented (L : List DetailedRow) :
    ∀ v : SummaryAcc, (L.foldl applyRow v).commented
      = v.commented + (L.map (fun row => row.commented)).sum := by
  induction L with
  | nil => intro v; simp
  | cons r rest ih =>
    intro v
    rw [List.foldl_cons, ih, List.map_cons, List.sum_cons]
    show (applyRow v r).commented + _ = _
    unfold applyRow
    simp only []
    omega

lemma foldl_applyRow_approved (L : List DetailedRow) :
    ∀ v : SummaryAcc, (L.foldl applyRow v).approved
      = v.approved + (L.map (fun row => row.approved)).sum := by
  induction L with
  | nil => intro v; simp
  | cons r rest ih =>
    intro v
    rw [List.foldl_cons, ih, List.map_cons, List.sum_cons]
    show (applyRow v r).approved + _ = _
    unfold applyRow
    simp only []
    omega

lemma foldl_applyRow_repos (L : List DetailedRow) :
    ∀ v : SummaryAcc, (L.foldl applyRow v).repos
      = ((L.filter (fun row => decide (0 < row.created))).map
          (fun row => repoKey row.owner row.repo)).foldl setAdd v.repos := by
  induction L with
  | nil => intro v; rfl
  | cons r rest ih =>
    intro v
    rw [List.foldl_cons, ih, List.filter_cons]
    by_cases h : 0 < r.created
    · rw [if_pos (by simpa using h), List.map_cons, List.foldl_cons]
      congr 1
      show (applyRow v r).repos = setAdd v.repos (repoKey r.owner r.repo)
      unfold applyRow
      simp only []
      rw [if_pos h]
    · rw [if_neg (by simpa using h)]
      congr 1
      show (applyRow v r).repos = v.repos
      unfold applyRow
      simp only []
      rw [if_neg h]

lemma foldl_applyRow_reposReviewed (L : List DetailedRow) :
    ∀ v : SummaryAcc, (L.foldl applyRow v).reposReviewed
      = ((L.filter (fun row => decide (0 < row.commented)
            || decide (0 < row.approved))).map
          (fun row => repoKey row.owner row.repo)).foldl setAdd
          v.reposReviewed := by
  induction L with
  | nil => intro v; rfl
  | cons r rest ih =>
    intro v
    rw [List.foldl_cons, ih, List.filter_cons]
    by_cases h : (decide (0 < r.commented) || decide (0 < r.approved)) = true
    · rw [if_pos h, List.map_cons, List.foldl_cons]
      congr 1
      show (applyRow v r).reposReviewed
        = setAdd v.reposReviewed (repoKey r.owner r.repo)
      unfold applyRow
      simp only []
      rw [if_pos h]
    · rw [if_neg h]
      congr 1
      show (applyRow v r).reposReviewed = v.reposReviewed
      unfold applyRow
      simp only []
      rw [if_neg h]

lemma setAdd_nodup (s : List String) (x : String) (h : s.Nodup) :
    (setAdd s x).Nodup := by
  unfold setAdd
  by_cases hc : s.contains x = true
  · rw [if_pos hc]
    exact h
  · rw [if_neg hc]
    have hx : x ∉ s := by simpa using hc
    rw [List.nodup_append]
    refine ⟨h, List.nodup_singleton x, ?_⟩
    intro a ha hb
    simp at hb
    rw [hb] at ha
    exact hx ha

lemma setAdd_toFinset (s : List String) (x : String) :
    (setAdd s x).toFinset = insert x s.toFinset := by
  unfold setAdd
  by_cases hc : s.contains x = true
  · rw [if_pos hc]
    have hx : x ∈ s := by simpa using hc
    exact (Finset.insert_eq_self.mpr (List.mem_toFinset.mpr hx)).symm
  · rw [if_neg hc]
    rw [List.toFinset_append]
    ext y
    simp
    tauto

lemma foldl_setAdd_nodup (L : List String) :
    ∀ s : List String, s.Nodup → (L.foldl setAdd s).Nodup := by
  induction L with
  | nil => intro s h; exact h
  | cons x rest ih =>
    intro s h
    rw [List.foldl_cons]
    exact ih _ (setAdd_nodup s x h)

lemma foldl_setAdd_toFinset (L : List String) :
    ∀ s : List String, (L.foldl setAdd s).toFinset = s.toFinset ∪ L.toFinset := by
  induction L with
  | nil => intro s; simp
  | cons x rest ih =>
    intro s
    rw [List.foldl_cons, ih, setAdd_toFinset, List.toFinset_cons]
    ext y
    simp
    try tauto

lemma foldl_setAdd_length (L : List String) :
    (L.foldl setAdd []).length = L.toFinset.card := by
  have h1 : (L.foldl setAdd []).Nodup := foldl_setAdd_nodup L [] List.nodup_nil
  have h2 : (L.foldl setAdd []).toFinset = L.toFinset := by
    rw [foldl_setAdd_toFinset]
    simp
  rw [← List.toFinset_card_of_nodup h1, h2]

lemma summary_keys_nodup (rows : List DetailedRow) :
    (keysOf (rows.foldl summaryStep [])).Nodup := by
  have hgen : ∀ acc : SummaryMap, (keysOf acc).Nodup →
      (keysOf (rows.foldl summaryStep acc)).Nodup := by
    induction rows with
    | nil => intro acc h; exact h
    | cons row rest ih =>
      intro acc h
      rw [List.foldl_cons]
      apply ih
      unfold summaryStep
      rw [keys_mapAt]
      exact keys_nodup_ensureKey _ _ _ h
  exact hgen [] List.nodup_nil

lemma countP_key_eq_one {α : Type} {m : List (String × α)}
    (hnd : (keysOf m).Nodup) {a : String}
    (hs : (lookup m a).isSome = true) :
    m.countP (fun e => e.1 == a) = 1 := by
  induction m with
  | nil => simp [lookup] at hs
  | cons p rest ih =>
    obtain ⟨k, v⟩ := p
    unfold keysOf at hnd
    rw [List.map_cons, List.nodup_cons] at hnd
    rw [List.countP_cons]
    by_cases hk : k = a
    · have hzero : rest.countP (fun e => e.1 == a) = 0 := by
        rw [List.countP_eq_zero]
        intro e he hea
        apply hnd.1
        rw [hk, ← beq_iff_eq.mp hea]
        have hmm : e.1 ∈ List.map Prod.fst rest :=
          List.mem_map_of_mem Prod.fst he
        exact hmm
      simp [hzero, hk]
    · rw [lookup, if_neg hk] at hs
      have hone := ih hnd.2 hs
      simp [hone, hk]

/-- Claim C2 is false as stated: `getSummary` tracks repositories through
the concatenated string `owner ++ "/" ++ repo`, so the two distinct pairs
("a", "b/c") and ("a/b", "c") collide and `repos` is 1 where the claim
demands the number of distinct pairs, 2. -/
theorem summary_repos_counterexample :
    getSummary [⟨"a", "b/c", "u", 1, 0, 0⟩, ⟨"a/b", "c", "u", 1, 0, 0⟩]
      = [⟨"u", 2, 1, 0, 0, 0⟩]
    ∧ ((([⟨"a", "b/c", "u", 1, 0, 0⟩, ⟨"a/b", "c", "u", 1, 0, 0⟩]
          : List DetailedRow).filter (fun row => decide (0 < row.created))).map
        (fun row => (row.owner, row.repo))).toFinset.card = 2 := by
  constructor
  · decide
  · decide

/-- Claim C2 (amended): `getSummary` produces exactly one row for each
author appearing in the input, summing `created` into `pull_requests` and
summing `commented` and `approved`; `repos` counts the distinct strings
`owner ++ "/" ++ repo` over that author's rows with `created > 0`, and
`repos_reviewed` counts the distinct such strings over the rows with
`commented > 0` or `approved > 0` (these string counts equal the counts of
distinct (owner, repo) pairs exactly when the encoding is injective on the
input, e.g. when owners contain no `/`). -/
theorem summary_per_author (rows : List DetailedRow) (a : String)
    (h : rows.any (fun row => row.author == a) = true) :
    ((getSummary rows).filter (fun s => s.author == a)).length = 1
    ∧ ∀ s ∈ getSummary rows, s.author = a →
        (s.pull_requests = ((rows.filter (fun row => row.author == a)).map
            (fun row => row.created)).sum
        ∧ s.commented = ((rows.filter (fun row => row.author == a)).map
            (fun row => row.commented)).sum
        ∧ s.approved = ((rows.filter (fun row => row.author == a)).map
            (fun row => row.approved)).sum
        ∧ s.repos = (((rows.filter (fun row => row.author == a)).filter
            (fun row => decide (0 < row.created))).map
            (fun row => repoKey row.owner row.repo)).toFinset.card
        ∧ s.repos_reviewed
          = (((rows.filter (fun row => row.author == a)).filter
              (fun row => decide (0 < row.commented)
                || decide (0 < row.approved))).map
              (fun row => repoKey row.owner row.repo)).toFinset.card) := by
  have hlook : lookup (rows.foldl summaryStep []) a
      = some ((rows.filter (fun row => row.author == a)).foldl applyRow
          SummaryAcc.zero) := by
    rw [summaryFold_lookup]
    simp [h, lookup]
  constructor
  · unfold getSummary
    rw [← List.countP_eq_length_filter, List.countP_map]
    have heq : ((fun s : SummaryRow => s.author == a) ∘ summaryRowOf)
        = fun e : String × SummaryAcc => e.1 == a := rfl
    rw [heq]
    apply countP_key_eq_one (summary_keys_nodup rows)
    rw [hlook]
    rfl
  · intro s hs hsa
    unfold getSummary at hs
    rw [List.mem_map] at hs
    obtain ⟨e, he, hse⟩ := hs
    have hea : e.1 = a := by
      rw [← hsa, ← hse]
      rfl
    have hl2 : lookup (rows.foldl summaryStep []) e.1 = some e.2 :=
      lookup_of_mem_nodup (summary_keys_nodup rows) (by
        obtain ⟨k, v⟩ := e
        exact he)
    rw [hea, hlook] at hl2
    injection hl2 with hl2
    have hval : e.2 = (rows.filter (fun row => row.author == a)).foldl applyRow
        SummaryAcc.zero := hl2.symm
    rw [← hse]
    unfold summaryRowOf
    simp only []
    rw [hval]
    refine ⟨?_, ?_, ?_, ?_, ?_⟩
    · rw [foldl_applyRow_pull_requests]
      simp [SummaryAcc.zero]
    · rw [foldl_applyRow_commented]
      simp [SummaryAcc.zero]
    · rw [foldl_applyRow_approved]
      simp [SummaryAcc.zero]
    · rw [foldl_applyRow_repos]
      exact foldl_setAdd_length _
    · rw [foldl_applyRow_reposReviewed]
      exact foldl_setAdd_length _

theorem summary_per_author_witness :
    ((getSummary [⟨"o", "r", "u", 2, 1, 0⟩]).filter
        (fun s => s.author == "u")).length = 1 :=
  (summary_per_author [⟨"o", "r", "u", 2, 1, 0⟩] "u" (by decide)).1

end GHStats
